import Mathlib

/-!
Verification of the hr-rag-system core services against their
natural-language specification.

Python strings are modelled as `List Char`; Python `float` scores and
metric values are modelled as `ℚ` (the algorithms only multiply, divide
and compare, so the rational model captures their structure); fallible
Python code returns `Option`/`Except`.  Each definition is a direct
translation of the function of the same name in `app/services/*.py`.
-/

/-! ## Python string helpers -/

/-- Python `str.strip()` on the left: drop leading whitespace. -/
def pyStripLeft (l : List Char) : List Char :=
  l.dropWhile Char.isWhitespace

/-- Python `str.strip()`: drop leading and trailing whitespace. -/
def pyStrip (l : List Char) : List Char :=
  ((l.dropWhile Char.isWhitespace).reverse.dropWhile Char.isWhitespace).reverse

/-- Python `str.split()` with no argument: split on whitespace runs,
dropping empty pieces. -/
def pySplitWs (l : List Char) : List (List Char) :=
  (l.splitOnP Char.isWhitespace).filter (fun p => ¬ p.isEmpty)

/-- Python `str.lower()` (ASCII case fold, as used by the services). -/
def pyLower (l : List Char) : List Char :=
  l.map Char.toLower

/-- Python `needle in haystack` for strings: substring containment. -/
def pyContains (haystack needle : List Char) : Bool :=
  haystack.tails.any (fun t => needle.isPrefixOf t)

/-- Python `a or b` for an optional integer argument with an integer
default (`k = k or self.k`): `None` and `0` are falsy. -/
def pyOrNat (a : Option Nat) (b : Nat) : Nat :=
  match a with
  | none => b
  | some n => if n = 0 then b else n

/-! ## Metadata model

Chunk / search-result metadata is a Python `dict`; the values the core
stores in it are strings, integers or lists of role strings. -/

inductive MetaVal where
  | str (s : String)
  | num (n : Nat)
  | roles (rs : List String)
  deriving DecidableEq, Repr

/-- A metadata mapping, as an association list (first binding wins). -/
abbrev Meta := List (String × MetaVal)

/-- Python `d.get(key, default)` restricted to lookup of the key. -/
def Meta.lookup (m : Meta) (k : String) : Option MetaVal :=
  (List.lookup k m)

/-- `result.metadata.get(roles_field, [])` in `RBACService.filter_results`:
an absent key (or a non-list value) yields the empty role list. -/
def Meta.getRoles (m : Meta) (k : String) : List String :=
  match m.lookup k with
  | some (MetaVal.roles rs) => rs
  | _ => []

/-! ## RBAC service (`app/services/rbac.py`) -/

/-- `rbac.User`. -/
structure User where
  user_id : String
  username : String
  roles : List String := []
  department : Option String := none
  deriving DecidableEq, Repr

/-- `ALL_STAFF_ROLE`. -/
def ALL_STAFF_ROLE : String := "all_staff"

/-- `RBACService.__init__`: `self.public_roles = public_roles or [ALL_STAFF_ROLE]`
(Python `or`: `None` and the empty list are falsy). -/
def mkPublicRoles (public_roles : Option (List String)) : List String :=
  match public_roles with
  | none => [ALL_STAFF_ROLE]
  | some [] => [ALL_STAFF_ROLE]
  | some l => l

/-- `RBACService.can_access`.  `publicRoles` is the service's
`self.public_roles` field. -/
def can_access (publicRoles : List String) (user : User)
    (document_roles : List String) : Bool :=
  -- Case 1: empty access_roles means public document
  if document_roles.isEmpty then true
  -- Case 2: document has a public role like "all_staff"
  else if publicRoles.any (fun r => document_roles.contains r) then true
  -- Case 3: check if user has any matching role
  else !(user.roles.filter (fun r => document_roles.contains r)).isEmpty

/-- An element of the `results` list handed to `filter_results`: either an
object with a `metadata` attribute (e.g. a `SearchResult`), a plain dict
(whose `'metadata'` key, defaulted to `{}`, is already resolved here), or
a value with neither, which the code skips with a warning. -/
inductive RResult where
  | obj (meta : Meta)
  | dict (meta : Meta)
  | plain
  deriving DecidableEq

/-- `RBACService.filter_results`. -/
def filter_results (publicRoles : List String) (user : User)
    (results : List RResult) (roles_field : String := "access_roles") :
    List RResult :=
  match results with
  | [] => []
  | r :: rest =>
    match r with
    | RResult.obj m =>
      if can_access publicRoles user (m.getRoles roles_field) then
        r :: filter_results publicRoles user rest roles_field
      else
        filter_results publicRoles user rest roles_field
    | RResult.dict m =>
      if can_access publicRoles user (m.getRoles roles_field) then
        r :: filter_results publicRoles user rest roles_field
      else
        filter_results publicRoles user rest roles_field
    | RResult.plain =>
      -- cannot determine access_roles: deny access (secure default)
      filter_results publicRoles user rest roles_field

/-! ## Evaluation service (`app/services/evaluation.py`) -/

/-- `EvaluationService.recall_at_k`.  `selfK` is the service's `self.k`;
`k = k or self.k` follows Python truthiness (`None` and `0` fall back). -/
def recall_at_k (selfK : Nat) (relevant_ids retrieved_ids : List String)
    (k : Option Nat) : ℚ :=
  if relevant_ids.isEmpty then 1
  else
    let k' := pyOrNat k selfK
    let top_k_retrieved := (retrieved_ids.take k').toFinset
    let relevant_set := relevant_ids.toFinset
    let relevant_found := (top_k_retrieved ∩ relevant_set).card
    (relevant_found : ℚ) / (relevant_set.card : ℚ)

/-! ## Chunker service (`app/services/chunker.py`) -/

/-- `chunker.Chunk` (its two metadata keys are set at creation). -/
structure Chunk where
  text : List Char
  index : Nat
  metadata : Meta := []
  deriving DecidableEq

/-- The metadata every strategy attaches to a produced chunk. -/
def chunkMeta (n : Nat) (strategy : String) : Meta :=
  [("chunk_size", MetaVal.num n), ("chunking_strategy", MetaVal.str strategy)]

/-- Default separator hierarchy of `ChunkerConfig`. -/
def defaultSeparators : List (List Char) :=
  ["\n\n\n".toList, "\n\n".toList, "\n".toList, ". ".toList, "? ".toList,
   "! ".toList, "; ".toList, ", ".toList, " ".toList, "".toList]

/-- `chunker.ChunkerConfig`. -/
structure ChunkerConfig where
  chunk_size : Nat := 1000
  chunk_overlap : Nat := 200
  min_chunk_size : Nat := 100
  separators : List (List Char) := defaultSeparators

/-- Python `text.split(sep)` for a non-empty separator: scan for the
leftmost occurrence, cut, continue on the remainder.  `fuel` only bounds
the recursion (every step consumes at least one character, so the
`length + 1` supplied by `pySplitOn` never runs out). -/
def pySplitOnGo (sep : List Char) :
    Nat → List Char → List Char → List (List Char)
  | 0, l, acc => [acc.reverse ++ l]
  | _ + 1, [], acc => [acc.reverse]
  | fuel + 1, c :: rest, acc =>
    if sep.isPrefixOf (c :: rest) then
      acc.reverse :: pySplitOnGo sep fuel (List.drop sep.length (c :: rest)) []
    else
      pySplitOnGo sep fuel rest (c :: acc)

/-- Python `text.split(sep)` (callers guarantee `sep` non-empty). -/
def pySplitOn (sep : List Char) (l : List Char) : List (List Char) :=
  if sep.isEmpty then [l] else pySplitOnGo sep (l.length + 1) l []

/-- The close-current-chunk step shared by the loop body and loop exit of
`RecursiveChunker._split_recursive`: a non-empty buffer is recursed on if
it still exceeds `chunk_size`, else appended. -/
def srClose (recur : List Char → List (List Char)) (csize : Nat)
    (chunks : List (List Char)) (current : List Char) : List (List Char) :=
  if current.isEmpty then chunks
  else if current.length > csize then chunks ++ recur current
  else chunks ++ [current]

/-- The `for split in splits` loop of `RecursiveChunker._split_recursive`
(each piece is `split + separator`, or the bare split when the separator
is empty). -/
def srLoop (recur : List Char → List (List Char)) (csize : Nat)
    (sep : List Char) :
    List (List Char) → List Char → List (List Char) → List (List Char)
  | [], current, chunks => srClose recur csize chunks current
  | s :: ss, current, chunks =>
    let piece := if sep.isEmpty then s else s ++ sep
    if decide (csize < current.length + piece.length) then
      srLoop recur csize sep ss piece (srClose recur csize chunks current)
    else
      srLoop recur csize sep ss (current ++ piece) chunks

/-- `RecursiveChunker._split_recursive`. -/
def splitRecursive (cfg : ChunkerConfig) :
    List (List Char) → List Char → List (List Char)
  | [], text => [text]
  | sep :: rest, text =>
    if text.length ≤ cfg.chunk_size then [text]
    else
      let splits :=
        if sep.isEmpty then text.map (fun c => [c]) else pySplitOn sep text
      srLoop (fun t => splitRecursive cfg rest t) cfg.chunk_size sep splits [] []

/-- Python `l[-n:]` for a non-negative count `n`.  Note `l[-0:]` is the
whole list (`-0 == 0` in Python), not the empty suffix. -/
def pyLastSlice (l : List Char) (n : Nat) : List Char :=
  if n = 0 then l else l.drop (l.length - n)

/-- The `for next_chunk in chunks[1:]` loop of
`RecursiveChunker._merge_small_chunks`, including its loop exit. -/
def mergeLoop (cfg : ChunkerConfig) :
    List (List Char) → List Char → List (List Char) → List (List Char)
  | [], current, merged =>
    if ¬current.isEmpty && decide (cfg.min_chunk_size ≤ current.length) then
      merged ++ [current]
    else if ¬current.isEmpty && ¬merged.isEmpty then
      merged.dropLast ++ [merged.getLastD [] ++ current]
    else if ¬current.isEmpty then [current]
    else merged
  | next_chunk :: rest, current, merged =>
    if current.length + next_chunk.length ≤ cfg.chunk_size then
      mergeLoop cfg rest (current ++ next_chunk) merged
    else
      let merged' :=
        if decide (cfg.min_chunk_size ≤ current.length) then merged ++ [current]
        else merged
      let overlap_text :=
        if decide (cfg.chunk_overlap < current.length) then
          pyLastSlice current cfg.chunk_overlap
        else current
      mergeLoop cfg rest (overlap_text ++ next_chunk) merged'

/-- `RecursiveChunker._merge_small_chunks`. -/
def mergeSmallChunks (cfg : ChunkerConfig) :
    List (List Char) → List (List Char)
  | [] => []
  | c :: cs => mergeLoop cfg cs c []

/-- `RecursiveChunker.chunk`. -/
def RecursiveChunker.chunk (cfg : ChunkerConfig) (text : List Char) :
    List Chunk :=
  if text.isEmpty || (pyStrip text).isEmpty then []
  else
    let raw_chunks := splitRecursive cfg cfg.separators text
    let merged_chunks := mergeSmallChunks cfg raw_chunks
    (merged_chunks.enum.filter (fun p => ¬(pyStrip p.2).isEmpty)).map
      (fun p => ⟨pyStrip p.2, p.1, chunkMeta p.2.length "recursive"⟩)

/-- The sentence-splitting regex `(?<=[.!?])\s+` of `SentenceChunker`:
split at each maximal whitespace run immediately preceded by `.`, `!` or
`?`, the run itself being discarded.  `prev` is the character before the
current scan position. -/
def sentenceSplitGo : Nat → List Char → Option Char → List Char → List (List Char)
  | 0, l, _, cur => [cur.reverse ++ l]
  | _ + 1, [], _, cur => [cur.reverse]
  | fuel + 1, c :: rest, prev, cur =>
    if c.isWhitespace &&
        (prev == some '.' || prev == some '!' || prev == some '?') then
      cur.reverse ::
        sentenceSplitGo fuel (rest.dropWhile Char.isWhitespace) (some ' ') []
    else
      sentenceSplitGo fuel rest (some c) (c :: cur)

/-- `self.sentence_pattern.split(text)` in `SentenceChunker.chunk`.
Every scan step consumes at least one character, so the fuel never runs
out. -/
def sentenceSplit (l : List Char) : List (List Char) :=
  sentenceSplitGo (l.length + 1) l none []

/-- The `for sentence in sentences` loop of `SentenceChunker.chunk`,
including its loop exit (each kept chunk is `current_chunk.strip()`). -/
def scLoop (csize : Nat) :
    List (List Char) → List Char → List (List Char) → List (List Char)
  | [], current, chunks =>
    if ¬(pyStrip current).isEmpty then chunks ++ [pyStrip current] else chunks
  | sentence :: ss, current, chunks =>
    if current.length + sentence.length ≤ csize then
      scLoop csize ss (current ++ sentence ++ [' ']) chunks
    else
      let chunks' :=
        if ¬(pyStrip current).isEmpty then chunks ++ [pyStrip current]
        else chunks
      scLoop csize ss (sentence ++ [' ']) chunks'

/-- `SentenceChunker.chunk`. -/
def SentenceChunker.chunk (cfg : ChunkerConfig) (text : List Char) :
    List Chunk :=
  if text.isEmpty || (pyStrip text).isEmpty then []
  else
    let sentences := sentenceSplit text
    let cs := scLoop cfg.chunk_size sentences [] []
    cs.enum.map (fun p => ⟨p.2, p.1, chunkMeta p.2.length "sentence"⟩)

/-- Clamp one bound of a Python slice `l[a:b]` to `[0, len(l)]`
(negative indices count from the end). -/
def pySliceClamp (n : Nat) (i : Int) : Nat :=
  if i < 0 then (max 0 ((n : Int) + i)).toNat else min i.toNat n

/-- Python `l[a:b]` for integer bounds. -/
def pySlice (l : List Char) (a b : Int) : List Char :=
  (l.take (pySliceClamp l.length b)).drop (pySliceClamp l.length a)

/-- The `while start < len(text)` loop of `FixedSizeChunker.chunk`,
with explicit fuel: `none` models non-termination within the given
budget.  `start` is an `Int` because `start = end - overlap` can go
negative in Python when `chunk_overlap` exceeds `chunk_size`. -/
def fixedLoop (cfg : ChunkerConfig) (text : List Char) :
    Nat → Int → List Chunk → Option (List Chunk)
  | 0, _, _ => none
  | fuel + 1, start, chunks =>
    if start < (text.length : Int) then
      let endPos := start + (cfg.chunk_size : Int)
      let chunk_text := pySlice text start endPos
      let chunks' :=
        if ¬(pyStrip chunk_text).isEmpty then
          chunks ++
            [⟨pyStrip chunk_text, chunks.length,
              chunkMeta chunk_text.length "fixed_size"⟩]
        else chunks
      fixedLoop cfg text fuel (endPos - (cfg.chunk_overlap : Int)) chunks'
    else some chunks

/-- `FixedSizeChunker.chunk`.  The fuel `len(text) + 1` is sufficient
whenever `chunk_overlap < chunk_size` (proved below); `none` therefore
models the loop not terminating. -/
def FixedSizeChunker.chunk (cfg : ChunkerConfig) (text : List Char) :
    Option (List Chunk) :=
  if text.isEmpty || (pyStrip text).isEmpty then some []
  else fixedLoop cfg text (text.length + 1) 0 []

/-! ## Retriever service (`app/services/retriever.py`) -/

/-- `vector_store.SearchResult` (score in `ℚ`). -/
structure SearchResult where
  id : String
  text : List Char
  score : ℚ
  metadata : Meta := []
  deriving DecidableEq

/-- `embedder.EmbeddingResult`. -/
structure EmbeddingResult where
  text : List Char
  vector : List ℚ
  model : String
  dimensions : Nat
  deriving DecidableEq

/-- `vector_store.VectorDocument`. -/
structure VectorDocument where
  id : String
  vector : List ℚ
  text : List Char
  metadata : Meta
  deriving DecidableEq

/-- `retriever.RetrieverConfig` (provider names are construction-time
wiring and are not modelled). -/
structure RetrieverConfig where
  top_k : Nat := 5
  score_threshold : Option ℚ := none
  use_reranking : Bool := false

/-- `retriever.RetrievalResult`. -/
structure RetrievalResult where
  query : List Char
  results : List SearchResult
  total_results : Nat
  filters_applied : Meta
  deriving DecidableEq

/-- The score boost applied to one hit in `Retriever._rerank`:
`result.score *= 1.0 + word_matches * 0.1` where `word_matches` counts
the lower-cased query words occurring as substrings of the hit's
lower-cased text. -/
def rerankBoost (query_words : List (List Char)) (r : SearchResult) :
    SearchResult :=
  let text_lower := pyLower r.text
  let word_matches := query_words.countP (fun word => pyContains text_lower word)
  { r with score := r.score * (1 + (word_matches : ℚ) * (1 / 10)) }

/-- Insert into a descending-sorted list, after every element with a
strictly larger score and before every element with an equal or smaller
one: the insertion step of a stable descending sort. -/
def insertDesc (x : SearchResult) : List SearchResult → List SearchResult
  | [] => [x]
  | y :: ys => if x.score < y.score then y :: insertDesc x ys else x :: y :: ys

/-- `results.sort(key=lambda r: r.score, reverse=True)`: Python's sort is
stable, and `reverse=True` keeps equal elements in their prior order, so
its result is the unique stable descending ordering, computed here by
insertion sort. -/
def sortDescByScore : List SearchResult → List SearchResult
  | [] => []
  | x :: xs => insertDesc x (sortDescByScore xs)

/-- `Retriever._rerank`. -/
def rerank (query : List Char) (results : List SearchResult) :
    List SearchResult :=
  let query_lower := pyLower query
  let query_words := pySplitWs query_lower
  sortDescByScore (results.map (rerankBoost query_words))

/-- One call made to the Embedding Port or the Vector Index Port; the
model returns the list of calls `Retriever.retrieve` performs alongside
its result. -/
inductive PortCall where
  | embed (text : List Char)
  | search (query_vector : List ℚ) (top_k : Nat) (filters : Option Meta)
      (score_threshold : Option ℚ)
  deriving DecidableEq

/-- `Retriever.retrieve`, parameterised over the two ports (`embedF` is
`self.embedder.embed`, `searchF` is `self.vector_store.search`).  The
returned list records the port calls made, in order. -/
def retrieve (cfg : RetrieverConfig)
    (embedF : List Char → EmbeddingResult)
    (searchF : List ℚ → Nat → Option Meta → Option ℚ → List SearchResult)
    (query : List Char) (top_k : Option Nat) (filters : Option Meta) :
    Except String RetrievalResult × List PortCall :=
  if query.isEmpty || (pyStrip query).isEmpty then
    (Except.error "Query cannot be empty", [])
  else
    let query_embedding := embedF query
    let k := pyOrNat top_k cfg.top_k
    let results := searchF query_embedding.vector k filters cfg.score_threshold
    let results' :=
      if cfg.use_reranking && !results.isEmpty then rerank query results
      else results
    (Except.ok ⟨query, results', results'.length, filters.getD []⟩,
     [PortCall.embed query,
      PortCall.search query_embedding.vector k filters cfg.score_threshold])

/-- `MockEmbedder.embed_batch`: `[self.embed(text) for text in texts if
text.strip()]`.  `gen` stands for the deterministic `_generate_vector`
(SHA-256 derived; its numeric values are irrelevant to every claim, so it
is a parameter), `dims` for `self.dimensions`. -/
def mockEmbedBatch (gen : List Char → List ℚ) (dims : Nat)
    (texts : List (List Char)) : List EmbeddingResult :=
  (texts.filter (fun t => ¬(pyStrip t).isEmpty)).map
    (fun t => ⟨t, gen t, "mock-embedder", dims⟩)

/-- `Retriever.index_chunks`, parameterised over the embedder's batch
call and the per-document `str(uuid.uuid4())` supply.  Returns the list
upserted into the Vector Index Port and the returned count (the store's
`upsert` returns `len(documents)`).  The merged metadata prepends the
overriding keys, since `Meta.lookup` takes the first binding. -/
def index_chunks (embedBatch : List (List Char) → List EmbeddingResult)
    (freshId : Nat → String) (chunks : List Chunk)
    (document_id : Option String) : List VectorDocument × Nat :=
  if chunks.isEmpty then ([], 0)
  else
    let texts := chunks.map (fun c => c.text)
    let embeddings := embedBatch texts
    let vector_docs := (chunks.zip embeddings).enum.map (fun p =>
      let chunk := p.2.1
      let embedding := p.2.2
      let metadata : Meta :=
        (match document_id with
         | some d => [("document_id", MetaVal.str d)]
         | none => []) ++
        [("chunk_index", MetaVal.num chunk.index)] ++ chunk.metadata
      (⟨freshId p.1, embedding.vector, chunk.text, metadata⟩ : VectorDocument))
    (vector_docs, vector_docs.length)

/-! ## PII masker (`app/services/pii_masker.py`)

The eight patterns use a small regex sub-language: single-character
classes, sequencing, alternation, greedy (possibly unbounded) repetition
of a character class, and the word boundary `\b`.  Matching follows
Python `re` semantics: leftmost match position, alternation prefers the
left branch, quantifiers are greedy with backtracking. -/

/-- Regex fragment.  `rep p lo hi` is `p{lo,hi}` (`hi = none` for an
open upper bound) over a single character class. -/
inductive RE where
  | cls (p : Char → Bool)
  | seq (a b : RE)
  | alt (a b : RE)
  | eps
  | rep (p : Char → Bool) (lo : Nat) (hi : Option Nat)
  | bound

/-- Python `\w` (the patterns only meet ASCII). -/
def isWordChar (c : Char) : Bool :=
  c.isAlphanum || c == '_'

/-- `\b`: a word/non-word transition between the previous and the next
character (text edges count as non-word). -/
def isBoundary (prev next : Option Char) : Bool :=
  (match prev with | some c => isWordChar c | none => false) !=
  (match next with | some c => isWordChar c | none => false)

/-- Backtracking attempts for a greedy class repetition: try consuming
`n` characters, then `n - 1`, ..., down to `lo`; the first continuation
success wins.  `prev` is the character before the repetition. -/
def repTryDown {α : Type} (prev : Option Char) (s : List Char)
    (k : Option Char → List Char → Option α) (lo : Nat) :
    Nat → Option α
  | 0 => if lo = 0 then k prev s else none
  | n + 1 =>
    if n + 1 < lo then none
    else
      match k (s.get? n) (s.drop (n + 1)) with
      | some r => some r
      | none => repTryDown prev s k lo n

/-- Length of the longest prefix of `s` inside the class, capped at the
upper repetition bound: the greedy first attempt. -/
def repMaxTake (p : Char → Bool) (hi : Option Nat) (s : List Char) : Nat :=
  match hi with
  | none => (s.takeWhile p).length
  | some h => min (s.takeWhile p).length h

/-- CPS backtracking matcher.  `prev` is the character immediately before
the current position (`none` at the text edge); the continuation receives
the updated `prev` and the remaining input. -/
def reMatch {α : Type} : RE → Option Char → List Char →
    (Option Char → List Char → Option α) → Option α
  | RE.cls _, _, [], _ => none
  | RE.cls p, _, c :: rest, k => if p c then k (some c) rest else none
  | RE.eps, prev, s, k => k prev s
  | RE.bound, prev, s, k =>
    if isBoundary prev s.head? then k prev s else none
  | RE.alt a b, prev, s, k =>
    (reMatch a prev s k).orElse (fun _ => reMatch b prev s k)
  | RE.seq a b, prev, s, k =>
    reMatch a prev s (fun p' s' => reMatch b p' s' k)
  | RE.rep p lo hi, prev, s, k =>
    repTryDown prev s k lo (repMaxTake p hi s)

/-- Try a match starting exactly at the current position; on success
return the previous-character context after the match and the rest of
the input. -/
def reMatchAt (re : RE) (prev : Option Char) (s : List Char) :
    Option (Option Char × List Char) :=
  reMatch re prev s (fun p' s' => some (p', s'))

/-- Python `pattern.sub(repl, s)`: scan left to right, replace each
leftmost non-overlapping match, never rescanning the replacement with
the same pattern.  (An empty match substitutes and advances one
character; the eight PII patterns cannot match empty.) -/
def pySubGo (re : RE) (repl : List Char) :
    Nat → Option Char → List Char → List Char
  | 0, _, s => s
  | fuel + 1, prev, s =>
    match reMatchAt re prev s with
    | some (p', rest) =>
      if rest.length < s.length then repl ++ pySubGo re repl fuel p' rest
      else
        match s with
        | [] => repl
        | c :: rest' => repl ++ c :: pySubGo re repl fuel (some c) rest'
    | none =>
      match s with
      | [] => []
      | c :: rest => c :: pySubGo re repl fuel (some c) rest

/-- `pattern.sub(replacement, text)` from the start of the text.  Every
scan step consumes at least one character, so the fuel never runs out. -/
def pySubRe (re : RE) (repl : List Char) (s : List Char) : List Char :=
  pySubGo re repl (s.length + 1) none s

/-- `pii_masker.PIIPattern`. -/
structure PIIPattern where
  name : String
  pattern : RE
  replacement : List Char

/-- Sequence a list of regex fragments. -/
def reSeqs (l : List RE) : RE := l.foldr RE.seq RE.eps

/-- A literal character. -/
def reChar (c : Char) : RE := RE.cls (fun x => x == c)

/-- `r?`: greedy option (presence preferred). -/
def reOpt (r : RE) : RE := RE.alt r RE.eps

/-- `[A-CEGHJ-PR-TW-Z]` under `re.IGNORECASE` (first NI letter). -/
def niFirst (c : Char) : Bool :=
  let u := c.toUpper
  ('A' ≤ u && u ≤ 'C') || u == 'E' || u == 'G' || u == 'H' ||
  ('J' ≤ u && u ≤ 'P') || ('R' ≤ u && u ≤ 'T') || ('W' ≤ u && u ≤ 'Z')

/-- `[A-CEGHJ-NPR-TW-Z]` under `re.IGNORECASE` (second NI letter). -/
def niSecond (c : Char) : Bool :=
  let u := c.toUpper
  ('A' ≤ u && u ≤ 'C') || u == 'E' || u == 'G' || u == 'H' ||
  ('J' ≤ u && u ≤ 'N') || u == 'P' || ('R' ≤ u && u ≤ 'T') ||
  ('W' ≤ u && u ≤ 'Z')

/-- `[A-D]` under `re.IGNORECASE` (NI suffix letter). -/
def niLast (c : Char) : Bool :=
  let u := c.toUpper
  'A' ≤ u && u ≤ 'D'

/-- `\b[A-CEGHJ-PR-TW-Z][A-CEGHJ-NPR-TW-Z]\d{6}[A-D]\b` (IGNORECASE). -/
def reNI : RE :=
  reSeqs [RE.bound, RE.cls niFirst, RE.cls niSecond,
    RE.rep Char.isDigit 6 (some 6), RE.cls niLast, RE.bound]

/-- The date separator class of the DOB pattern: dash, slash or dot. -/
def dateSep (c : Char) : Bool :=
  c == '-' || c == '/' || c == '.'

/-- The DOB pattern: `\b`, then `0[1-9]` or `[12]\d` or `3[01]`, a date
separator, `0[1-9]` or `1[0-2]`, a date separator, `19` or `20`, `\d{2}`,
`\b`. -/
def reDOB : RE :=
  let day := RE.alt
    (reSeqs [reChar '0', RE.cls (fun c => '1' ≤ c && c ≤ '9')])
    (RE.alt
      (reSeqs [RE.cls (fun c => c == '1' || c == '2'), RE.cls Char.isDigit])
      (reSeqs [reChar '3', RE.cls (fun c => c == '0' || c == '1')]))
  let month := RE.alt
    (reSeqs [reChar '0', RE.cls (fun c => '1' ≤ c && c ≤ '9')])
    (reSeqs [reChar '1', RE.cls (fun c => '0' ≤ c && c ≤ '2')])
  let century := RE.alt
    (reSeqs [reChar '1', reChar '9'])
    (reSeqs [reChar '2', reChar '0'])
  reSeqs [RE.bound, day, RE.cls dateSep, month, RE.cls dateSep, century,
    RE.rep Char.isDigit 2 (some 2), RE.bound]

/-- `[\s.-]?`, the optional phone separator. -/
def phoneSep : RE :=
  RE.rep (fun c => c.isWhitespace || c == '.' || c == '-') 0 (some 1)

/-- `(?:\+44\s?)?(?:0|\(0\))?\s?7\d{3}[\s.-]?\d{3}[\s.-]?\d{3}` followed,
as an alternative, by the landline arm
`(?:\+44\s?)?(?:0|\(0\))?\s?[1-2]\d{2,3}[\s.-]?\d{3}[\s.-]?\d{3,4}`. -/
def rePhone : RE :=
  let cc := reOpt (reSeqs [reChar '+', reChar '4', reChar '4',
    RE.rep Char.isWhitespace 0 (some 1)])
  let zero := reOpt (RE.alt (reChar '0')
    (reSeqs [reChar '(', reChar '0', reChar ')']))
  let ws := RE.rep Char.isWhitespace 0 (some 1)
  let mobile := reSeqs [cc, zero, ws, reChar '7',
    RE.rep Char.isDigit 3 (some 3), phoneSep,
    RE.rep Char.isDigit 3 (some 3), phoneSep,
    RE.rep Char.isDigit 3 (some 3)]
  let landline := reSeqs [cc, zero, ws,
    RE.cls (fun c => c == '1' || c == '2'),
    RE.rep Char.isDigit 2 (some 3), phoneSep,
    RE.rep Char.isDigit 3 (some 3), phoneSep,
    RE.rep Char.isDigit 3 (some 4)]
  RE.alt mobile landline

/-- `\b[A-Za-z0-9._%+-]+@[A-Za-z0-9.-]+\.[A-Z|a-z]{2,}\b` (the class
`[A-Z|a-z]` literally contains `|`). -/
def reEmail : RE :=
  reSeqs [RE.bound,
    RE.rep (fun c => c.isAlphanum || c == '.' || c == '_' || c == '%' ||
      c == '+' || c == '-') 1 none,
    reChar '@',
    RE.rep (fun c => c.isAlphanum || c == '.' || c == '-') 1 none,
    reChar '.',
    RE.rep (fun c => c.isAlpha || c == '|') 2 none,
    RE.bound]

/-- `\b[A-Z]{1,2}\d[A-Z\d]?\s*\d[A-Z]{2}\b` (IGNORECASE). -/
def rePostcode : RE :=
  reSeqs [RE.bound,
    RE.rep Char.isAlpha 1 (some 2),
    RE.cls Char.isDigit,
    RE.rep (fun c => c.isAlpha || c.isDigit) 0 (some 1),
    RE.rep Char.isWhitespace 0 none,
    RE.cls Char.isDigit,
    RE.rep Char.isAlpha 2 (some 2),
    RE.bound]

/-- `\b\d{2}-\d{2}-\d{2}\b`. -/
def reSortCode : RE :=
  reSeqs [RE.bound, RE.rep Char.isDigit 2 (some 2), reChar '-',
    RE.rep Char.isDigit 2 (some 2), reChar '-',
    RE.rep Char.isDigit 2 (some 2), RE.bound]

/-- `\b\d{8}\b`. -/
def reBankAccount : RE :=
  reSeqs [RE.bound, RE.rep Char.isDigit 8 (some 8), RE.bound]

/-- `\b\d{9}\b`. -/
def rePassport : RE :=
  reSeqs [RE.bound, RE.rep Char.isDigit 9 (some 9), RE.bound]

/-- `PIIMasker._build_patterns`, in its fixed order. -/
def piiPatterns : List PIIPattern :=
  [⟨"NI_NUMBER", reNI, "[NI_NUMBER]".toList⟩,
   ⟨"DOB", reDOB, "[DOB]".toList⟩,
   ⟨"PHONE_UK", rePhone, "[PHONE]".toList⟩,
   ⟨"EMAIL", reEmail, "[EMAIL]".toList⟩,
   ⟨"POSTCODE", rePostcode, "[POSTCODE]".toList⟩,
   ⟨"SORT_CODE", reSortCode, "[SORT_CODE]".toList⟩,
   ⟨"BANK_ACCOUNT", reBankAccount, "[BANK_ACCOUNT]".toList⟩,
   ⟨"PASSPORT", rePassport, "[PASSPORT]".toList⟩]

/-- `PIIMasker.mask`: apply each pattern's substitution in order to the
progressively masked text (the `findall` in the source only feeds
logging). -/
def mask (text : List Char) : List Char :=
  if text.isEmpty then text
  else piiPatterns.foldl
    (fun masked p => pySubRe p.pattern p.replacement masked) text

/-! ## Auxiliary definitions used by the theorems -/

/-- `insertDesc` on index-decorated hits, comparing scores only; used to
state stability of the re-ranking sort. -/
def insertDescP (x : Nat × SearchResult) :
    List (Nat × SearchResult) → List (Nat × SearchResult)
  | [] => [x]
  | y :: ys =>
    if x.2.score < y.2.score then y :: insertDescP x ys else x :: y :: ys

/-- The stable descending sort on index-decorated hits. -/
def pairSortDesc : List (Nat × SearchResult) → List (Nat × SearchResult)
  | [] => []
  | x :: xs => insertDescP x (pairSortDesc xs)

/-- The strict ordering a stable descending sort realises on
index-decorated hits: strictly larger score first, ties by original
position. -/
def rankedBefore (a b : Nat × SearchResult) : Prop :=
  b.2.score < a.2.score ∨ (a.2.score = b.2.score ∧ a.1 < b.1)

/-- `reRequires pred re`: every successful match of `re` must consume at
least one character satisfying `pred`. -/
def reRequires (pred : Char → Bool) : RE → Prop
  | RE.cls p => ∀ c, p c = true → pred c = true
  | RE.seq a b => reRequires pred a ∨ reRequires pred b
  | RE.alt a b => reRequires pred a ∧ reRequires pred b
  | RE.eps => False
  | RE.rep p lo _ => 1 ≤ lo ∧ ∀ c, p c = true → pred c = true
  | RE.bound => False

/-- Characters every PII pattern needs at least one of: a digit, or `@`
for the email pattern. -/
def predDA (c : Char) : Bool :=
  c.isDigit || c == '@'

/-- The masker's placeholder tokens, in pattern order. -/
def piiPlaceholders : List (List Char) :=
  piiPatterns.map (fun p => p.replacement)

/-- Texts composed only of placeholder tokens and whitespace. -/
inductive PlaceholderOnly : List Char → Prop where
  | nil : PlaceholderOnly []
  | tok (t rest : List Char) : t ∈ piiPlaceholders → PlaceholderOnly rest →
      PlaceholderOnly (t ++ rest)
  | ws (c : Char) (rest : List Char) : c.isWhitespace = true →
      PlaceholderOnly rest → PlaceholderOnly (c :: rest)

/-! ## Theorems -/

/-- C5 counterexample: with custom `public_roles = ["everyone", "public"]`
(a configuration the repository's own tests exercise), a plain employee
is denied `["all_staff"]`, so `can_access(user, ["all_staff"])` is not
true for every configured `public_roles`. -/
theorem c5_counterexample :
    can_access (mkPublicRoles (some ["everyone", "public"]))
      ⟨"1", "alice", ["employee"], none⟩ [ALL_STAFF_ROLE] = false := by
  decide

/-- C5 (amended): for every user and configuration, `can_access(user, [])`
is true; `can_access(user, ["all_staff"])` is true whenever the
configured public roles contain `"all_staff"` — in particular for the
default configuration; and a user with no overlapping role is denied any
non-empty document-role set containing no configured public role. -/
theorem c5_can_access (publicRoles : List String) (u : User) :
    can_access publicRoles u [] = true ∧
    (ALL_STAFF_ROLE ∈ publicRoles →
      can_access publicRoles u [ALL_STAFF_ROLE] = true) ∧
    can_access (mkPublicRoles none) u [ALL_STAFF_ROLE] = true ∧
    (∀ document_roles : List String, document_roles ≠ [] →
      (∀ r ∈ publicRoles, r ∉ document_roles) →
      (∀ r ∈ u.roles, r ∉ document_roles) →
      can_access publicRoles u document_roles = false) := by
  refine ⟨by simp [can_access], ?_, ?_, ?_⟩
  · intro hmem
    have hany : (publicRoles.any fun r => [ALL_STAFF_ROLE].contains r) = true :=
      List.any_eq_true.mpr ⟨ALL_STAFF_ROLE, hmem, by simp⟩
    simp only [can_access, List.isEmpty_cons, hany]
    simp
  · simp [can_access, mkPublicRoles, List.any_eq_true]
  · intro droles hne hpub huser
    have hie : droles.isEmpty = false := by
      cases droles with
      | nil => exact absurd rfl hne
      | cons a l => rfl
    have hany : (publicRoles.any (fun r => droles.contains r)) = false := by
      simp only [List.any_eq_false]
      intro r hr
      simpa using hpub r hr
    have hfil : (u.roles.filter (fun r => droles.contains r)) = [] := by
      rw [List.filter_eq_nil_iff]
      intro r hr
      simpa using huser r hr
    rw [can_access, hie, hany, hfil]
    simp

/-- C5 witness. -/
theorem c5_can_access_witness :
    can_access ["all_staff"] ⟨"1", "alice", ["employee"], none⟩ [] = true ∧
    can_access ["all_staff"] ⟨"1", "alice", ["employee"], none⟩
      [ALL_STAFF_ROLE] = true ∧
    can_access (mkPublicRoles none) ⟨"1", "alice", ["employee"], none⟩
      [ALL_STAFF_ROLE] = true ∧
    can_access ["all_staff"] ⟨"1", "alice", ["employee"], none⟩
      ["hr", "admin"] = false := by
  obtain ⟨h1, h2, h3, h4⟩ := c5_can_access ["all_staff"]
    ⟨"1", "alice", ["employee"], none⟩
  exact ⟨h1, h2 (by decide), h3,
    h4 ["hr", "admin"] (by decide) (by decide) (by decide)⟩

/-- C1 counterexample: a hit whose metadata mapping is present but lacks
the access-roles field is *kept* by `filter_results` (even for a user
with no roles, under the default configuration), not excluded: the code
defaults the missing field to `[]`, which `can_access` treats as public. -/
theorem c1_counterexample :
    filter_results (mkPublicRoles none) ⟨"1", "norole", [], none⟩
      [RResult.obj [("department", MetaVal.str "HR")]] "access_roles" =
    [RResult.obj [("department", MetaVal.str "HR")]] := by
  decide

/-- C1 (amended): a hit whose metadata mapping lacks the access-roles
field is treated as public (the field defaults to the empty role list)
and is included for every user and configuration; only a result exposing
no metadata mapping at all is skipped (denied). -/
theorem c1_missing_roles_field (publicRoles : List String) (u : User)
    (m : Meta) (rest : List RResult) (roles_field : String) :
    (Meta.lookup m roles_field = none →
      filter_results publicRoles u (RResult.obj m :: rest) roles_field =
        RResult.obj m :: filter_results publicRoles u rest roles_field) ∧
    filter_results publicRoles u (RResult.plain :: rest) roles_field =
      filter_results publicRoles u rest roles_field := by
  constructor
  · intro hnone
    have hroles : m.getRoles roles_field = [] := by
      simp [Meta.getRoles, hnone]
    have hacc : can_access publicRoles u (m.getRoles roles_field) = true := by
      simp [hroles, can_access]
    simp [filter_results, hacc]
  · rfl

/-- C1 witness. -/
theorem c1_missing_roles_field_witness :
    Meta.lookup [("department", MetaVal.str "HR")] "access_roles" = none ∧
    filter_results ["all_staff"] ⟨"1", "norole", [], none⟩
      [RResult.obj [("department", MetaVal.str "HR")], RResult.plain]
      "access_roles" =
      RResult.obj [("department", MetaVal.str "HR")] ::
        filter_results ["all_staff"] ⟨"1", "norole", [], none⟩
          [RResult.plain] "access_roles" := by
  refine ⟨by decide, ?_⟩
  exact (c1_missing_roles_field ["all_staff"] ⟨"1", "norole", [], none⟩
    [("department", MetaVal.str "HR")] [RResult.plain] "access_roles").1
    (by decide)

/-- C7: for every whitespace-only (or empty) query, `Retriever.retrieve`
fails with the invalid-input error and performs no port call at all —
regardless of configuration, ports, `top_k` and filters. -/
theorem c7_empty_query_rejected (cfg : RetrieverConfig)
    (embedF : List Char → EmbeddingResult)
    (searchF : List ℚ → Nat → Option Meta → Option ℚ → List SearchResult)
    (query : List Char) (top_k : Option Nat) (filters : Option Meta)
    (h : (pyStrip query).isEmpty = true) :
    retrieve cfg embedF searchF query top_k filters =
      (Except.error "Query cannot be empty", []) := by
  simp [retrieve, h]

/-- C7 witness. -/
theorem c7_empty_query_rejected_witness :
    retrieve {} (fun t => ⟨t, [1], "m", 1⟩) (fun _ _ _ _ => [])
      "   ".toList none none = (Except.error "Query cannot be empty", []) :=
  c7_empty_query_rejected {} (fun t => ⟨t, [1], "m", 1⟩) (fun _ _ _ _ => [])
    "   ".toList none none (by decide)

/-- C8: for a positive explicit `k`, `recall_at_k` is the number of
distinct relevant ids appearing in the first `k` retrieved ids divided by
the number of distinct relevant ids, and it is exactly 1 whenever the
relevant-id list is empty, regardless of the retrieved list and of `k`. -/
theorem c8_recall_at_k (selfK : Nat) (relevant retrieved : List String)
    (k : Nat) (anyk : Option Nat) :
    (relevant ≠ [] → 0 < k →
      recall_at_k selfK relevant retrieved (some k) =
        ((relevant.toFinset.filter
            (fun i => i ∈ retrieved.take k)).card : ℚ) /
          (relevant.toFinset.card : ℚ)) ∧
    recall_at_k selfK [] retrieved anyk = 1 := by
  constructor
  · intro hne hk
    have hie : relevant.isEmpty = false := by
      cases relevant with
      | nil => exact absurd rfl hne
      | cons a l => rfl
    have hkk : pyOrNat (some k) selfK = k := by
      simp [pyOrNat, Nat.pos_iff_ne_zero.mp hk]
    have hset : (retrieved.take k).toFinset ∩ relevant.toFinset =
        relevant.toFinset.filter (fun i => i ∈ retrieved.take k) := by
      ext x
      simp [Finset.mem_inter, Finset.mem_filter, List.mem_toFinset, and_comm]
    rw [recall_at_k]
    simp only [hie, Bool.false_eq_true, if_false, hkk, hset]
  · rfl

/-- C8 witness (the spec's own example:
`recallAtK(["a","b"], ["a","b","c"], 5) = 1`). -/
theorem c8_recall_at_k_witness :
    recall_at_k 5 ["a", "b"] ["a", "b", "c"] (some 5) =
      (((["a", "b"] : List String).toFinset.filter
          (fun i => i ∈ (["a", "b", "c"] : List String).take 5)).card : ℚ) /
        ((["a", "b"] : List String).toFinset.card : ℚ) :=
  (c8_recall_at_k 5 ["a", "b"] ["a", "b", "c"] 5 none).1 (by decide) (by decide)

/-- Helper: when the window step `chunk_size - chunk_overlap` is
positive, fuel exceeding the remaining distance makes `fixedLoop`
return. -/
theorem fixedLoop_isSome_of_lt (cfg : ChunkerConfig) (text : List Char)
    (hstep : cfg.chunk_overlap < cfg.chunk_size) :
    ∀ (fuel : Nat) (start : Int) (acc : List Chunk), 1 ≤ fuel →
      (text.length : Int) - start < fuel →
      (fixedLoop cfg text fuel start acc).isSome := by
  intro fuel
  induction fuel with
  | zero => intro start acc h1 _; omega
  | succ n ih =>
    intro start acc _ hfuel
    rw [fixedLoop]
    by_cases hlt : start < (text.length : Int)
    · simp only [hlt, if_true]
      apply ih
      · omega
      · omega
    · simp [hlt]

/-- Helper: when the step is non-positive, the window start never
advances past the end, so no amount of fuel makes `fixedLoop` return. -/
theorem fixedLoop_none_of_step_nonpos (cfg : ChunkerConfig)
    (text : List Char) (hstep : cfg.chunk_size ≤ cfg.chunk_overlap) :
    ∀ (fuel : Nat) (start : Int) (acc : List Chunk),
      start < (text.length : Int) →
      fixedLoop cfg text fuel start acc = none := by
  intro fuel
  induction fuel with
  | zero => intro start acc _; rfl
  | succ n ih =>
    intro start acc hlt
    rw [fixedLoop]
    simp only [hlt, if_true]
    apply ih
    omega

/-- C10: whenever `chunk_overlap < chunk_size`, `FixedSizeChunker.chunk`
terminates on every text within `len(text) + 1` loop iterations (the
start strictly increases by `chunk_size - chunk_overlap ≥ 1`); and the
precondition is necessary: whenever `chunk_overlap ≥ chunk_size`, on any
text longer than `chunk_size` (such as any run of letters of length
`chunk_size + 1`) the loop returns for no fuel at all. -/
theorem c10_fixed_chunker_termination (cfg : ChunkerConfig) :
    (cfg.chunk_overlap < cfg.chunk_size →
      ∀ text : List Char, (FixedSizeChunker.chunk cfg text).isSome) ∧
    (cfg.chunk_size ≤ cfg.chunk_overlap →
      ∀ text : List Char, cfg.chunk_size < text.length →
        ∀ (fuel : Nat) (acc : List Chunk),
          fixedLoop cfg text fuel 0 acc = none) := by
  constructor
  · intro hstep text
    rw [FixedSizeChunker.chunk]
    by_cases hempty : (text.isEmpty || (pyStrip text).isEmpty) = true
    · simp [hempty]
    · simp only [hempty, Bool.false_eq_true, if_false]
      apply fixedLoop_isSome_of_lt cfg text hstep
      · omega
      · omega
  · intro hstep text hlen fuel acc
    apply fixedLoop_none_of_step_nonpos cfg text hstep
    omega

/-- C10 witness: `chunk_size = 3 > 1 = chunk_overlap` terminates on a
9-character text; `chunk_size = 2 ≤ 2 = chunk_overlap` loops forever on
a 3-character text (no fuel, here 5, suffices). -/
theorem c10_fixed_chunker_termination_witness :
    (FixedSizeChunker.chunk ⟨3, 1, 2, defaultSeparators⟩
      "abcdefghi".toList).isSome ∧
    fixedLoop ⟨2, 2, 1, defaultSeparators⟩ "abc".toList 5 0 [] = none := by
  constructor
  · exact (c10_fixed_chunker_termination ⟨3, 1, 2, defaultSeparators⟩).1
      (by decide) "abcdefghi".toList
  · exact (c10_fixed_chunker_termination ⟨2, 2, 1, defaultSeparators⟩).2
      (by decide) "abc".toList (by decide) 5 []

/-- C3 counterexample: (a) on `" hello "` with the default configuration
the recursive strategy emits one chunk with text `"hello"` (length 5)
but `metadata["chunk_size"] = 7`, the length of the *candidate before
trimming*, so `chunk_size` is not the length of the chunk's text field;
(b) with `chunk_size = 4, overlap = 1, min_chunk_size = 2` on
`"   xxxxx"` the recursive strategy's first emitted chunk has `index = 1`
(the whitespace-only merged candidate at position 0 was dropped but
consumed the index), so indices are not gap-free 0-based positions. -/
theorem c3_counterexample :
    ((RecursiveChunker.chunk {} (" hello ".toList)).map
        (fun c => (c.text, c.index, Meta.lookup c.metadata "chunk_size")) =
      [("hello".toList, 0, some (MetaVal.num 7))] ∧
      ("hello".toList).length = 5 ∧ (7 : Nat) ≠ 5) ∧
    (RecursiveChunker.chunk ⟨4, 1, 2, defaultSeparators⟩
        ("   xxxxx".toList)).map (fun c => c.index) = [1, 2, 3, 4] := by
  constructor
  · exact ⟨by decide, by decide, by decide⟩
  · decide

/-- Helper: appending one element that satisfies a positional predicate
at the tail position preserves the predicate at every position. -/
theorem shape_append {P : Chunk → Nat → Prop} (acc : List Chunk) (x : Chunk)
    (hacc : ∀ (i : Nat) (hi : i < acc.length), P (acc.get ⟨i, hi⟩) i)
    (hx : P x acc.length) :
    ∀ (i : Nat) (hi : i < (acc ++ [x]).length),
      P ((acc ++ [x]).get ⟨i, hi⟩) i := by
  intro i hi
  rcases Nat.lt_or_ge i acc.length with hlt | hge
  · have heq : (acc ++ [x]).get ⟨i, hi⟩ = acc.get ⟨i, hlt⟩ := by
      simp [List.getElem_append_left, hlt]
    rw [heq]
    exact hacc i hlt
  · have hieq : i = acc.length := by
      simp only [List.length_append, List.length_singleton] at hi
      omega
    subst hieq
    have heq : (acc ++ [x]).get ⟨acc.length, hi⟩ = x := by
      simp
    rw [heq]
    exact hx

/-- Helper: invariant of the fixed-size window loop — every accumulated
chunk sits at the position its `index` names and carries the metadata of
its pre-trim candidate. -/
theorem fixedLoop_shape (cfg : ChunkerConfig) (text : List Char) :
    ∀ (fuel : Nat) (start : Int) (acc cs : List Chunk),
      fixedLoop cfg text fuel start acc = some cs →
      (∀ (i : Nat) (hi : i < acc.length),
        (acc.get ⟨i, hi⟩).index = i ∧
        ∃ cand : List Char, (acc.get ⟨i, hi⟩).text = pyStrip cand ∧
          (acc.get ⟨i, hi⟩).metadata = chunkMeta cand.length "fixed_size") →
      (∀ (i : Nat) (hi : i < cs.length),
        (cs.get ⟨i, hi⟩).index = i ∧
        ∃ cand : List Char, (cs.get ⟨i, hi⟩).text = pyStrip cand ∧
          (cs.get ⟨i, hi⟩).metadata = chunkMeta cand.length "fixed_size") := by
  intro fuel
  induction fuel with
  | zero => intro start acc cs h; exact absurd h (by simp [fixedLoop])
  | succ n ih =>
    intro start acc cs h hacc
    rw [fixedLoop] at h
    by_cases hlt : start < (text.length : Int)
    · simp only [hlt, if_true] at h
      split at h
      · refine ih _ _ _ h ?_
        refine shape_append
          (P := fun c i => c.index = i ∧
            ∃ cand : List Char, c.text = pyStrip cand ∧
              c.metadata = chunkMeta cand.length "fixed_size")
          acc _ hacc ?_
        exact ⟨rfl, pySlice text start (start + (cfg.chunk_size : Int)), rfl, rfl⟩
      · exact ih _ _ _ h hacc
    · simp only [hlt, if_false] at h
      cases h
      exact hacc

/-- C3 (amended): every emitted chunk carries
`metadata["chunking_strategy"]` equal to its strategy's tag and
`metadata["chunk_size"]` equal to the length of its candidate text
*before* whitespace-trimming (for the sentence strategy candidates are
already trimmed, so this equals the emitted text's length); the sentence
and fixed strategies assign `index` as the gap-free 0-based position
among emitted chunks, while the recursive strategy assigns `index` by
position in the merged candidate list *before* whitespace-only
candidates are dropped, so a dropped candidate consumes an index. -/
theorem c3_chunk_metadata_and_index :
    (∀ (cfg : ChunkerConfig) (text : List Char) (c : Chunk),
      c ∈ RecursiveChunker.chunk cfg text →
      ∃ p : Nat × List Char,
        p ∈ (mergeSmallChunks cfg
          (splitRecursive cfg cfg.separators text)).enum ∧
        (pyStrip p.2).isEmpty = false ∧ c.text = pyStrip p.2 ∧
        c.index = p.1 ∧ c.metadata = chunkMeta p.2.length "recursive") ∧
    (∀ (cfg : ChunkerConfig) (text : List Char) (i : Nat)
      (hi : i < (SentenceChunker.chunk cfg text).length),
      ((SentenceChunker.chunk cfg text).get ⟨i, hi⟩).index = i ∧
      ((SentenceChunker.chunk cfg text).get ⟨i, hi⟩).metadata =
        chunkMeta ((SentenceChunker.chunk cfg text).get ⟨i, hi⟩).text.length
          "sentence") ∧
    (∀ (cfg : ChunkerConfig) (text : List Char) (cs : List Chunk),
      FixedSizeChunker.chunk cfg text = some cs →
      ∀ (i : Nat) (hi : i < cs.length),
        (cs.get ⟨i, hi⟩).index = i ∧
        ∃ cand : List Char, (cs.get ⟨i, hi⟩).text = pyStrip cand ∧
          (cs.get ⟨i, hi⟩).metadata = chunkMeta cand.length "fixed_size") := by
  refine ⟨?_, ?_, ?_⟩
  · intro cfg text c hc
    rw [RecursiveChunker.chunk] at hc
    split at hc
    · exact absurd hc (List.not_mem_nil c)
    · obtain ⟨p, hpfil, hpc⟩ := List.mem_map.mp hc
      obtain ⟨hpmem, hpcond⟩ := List.mem_filter.mp hpfil
      refine ⟨p, hpmem, ?_, ?_, ?_, ?_⟩
      · simpa using hpcond
      · rw [← hpc]
      · rw [← hpc]
      · rw [← hpc]
  · intro cfg text i
    rw [SentenceChunker.chunk]
    by_cases hcond : (text.isEmpty || (pyStrip text).isEmpty) = true
    · rw [if_pos hcond]
      intro hi
      exact absurd hi (by simp)
    · rw [if_neg hcond]
      intro hi
      constructor
      · simp [List.getElem_map, List.getElem_enum]
      · simp [List.getElem_map, List.getElem_enum]
  · intro cfg text cs hcs
    rw [FixedSizeChunker.chunk] at hcs
    split at hcs
    · cases hcs
      intro i hi
      exact absurd hi (by simp)
    · exact fixedLoop_shape cfg text _ _ _ _ hcs (by intro i hi; exact absurd hi (by simp))

/-- C3 witness: the amended statement instantiated on concrete inputs
for each strategy. -/
theorem c3_chunk_metadata_and_index_witness :
    (∃ p : Nat × List Char,
      p ∈ (mergeSmallChunks ({} : ChunkerConfig)
        (splitRecursive ({} : ChunkerConfig)
          ({} : ChunkerConfig).separators (" hello ".toList))).enum ∧
      (pyStrip p.2).isEmpty = false ∧
      ("hello".toList) = pyStrip p.2 ∧ (0 : Nat) = p.1 ∧
      chunkMeta 7 "recursive" = chunkMeta p.2.length "recursive") ∧
    (((SentenceChunker.chunk {} ("a. b".toList)).get ⟨0, by decide⟩).index = 0 ∧
      ((SentenceChunker.chunk {} ("a. b".toList)).get ⟨0, by decide⟩).metadata =
        chunkMeta
          ((SentenceChunker.chunk {} ("a. b".toList)).get
            ⟨0, by decide⟩).text.length "sentence") ∧
    ((([⟨"abc".toList, 0, chunkMeta 3 "fixed_size"⟩,
        ⟨"cd".toList, 1, chunkMeta 2 "fixed_size"⟩] : List Chunk).get
          ⟨1, by decide⟩).index = 1 ∧
      ∃ cand : List Char,
        (([⟨"abc".toList, 0, chunkMeta 3 "fixed_size"⟩,
          ⟨"cd".toList, 1, chunkMeta 2 "fixed_size"⟩] : List Chunk).get
            ⟨1, by decide⟩).text = pyStrip cand ∧
        (([⟨"abc".toList, 0, chunkMeta 3 "fixed_size"⟩,
          ⟨"cd".toList, 1, chunkMeta 2 "fixed_size"⟩] : List Chunk).get
            ⟨1, by decide⟩).metadata = chunkMeta cand.length "fixed_size") := by
  refine ⟨?_, ?_, ?_⟩
  · exact c3_chunk_metadata_and_index.1 {} (" hello ".toList)
      ⟨"hello".toList, 0, chunkMeta 7 "recursive"⟩ (by decide)
  · exact c3_chunk_metadata_and_index.2.1 {} ("a. b".toList) 0 (by decide)
  · exact c3_chunk_metadata_and_index.2.2 ⟨3, 1, 2, defaultSeparators⟩
      ("abcd".toList)
      [⟨"abc".toList, 0, chunkMeta 3 "fixed_size"⟩,
       ⟨"cd".toList, 1, chunkMeta 2 "fixed_size"⟩] (by decide) 1 (by decide)

/-- Helper: stripping whitespace yields a contiguous substring. -/
theorem pyStrip_isInfix (l : List Char) : pyStrip l <:+: l := by
  rw [pyStrip]
  have h1 : ((l.dropWhile Char.isWhitespace).reverse.dropWhile
      Char.isWhitespace).reverse <+: l.dropWhile Char.isWhitespace := by
    have h := List.dropWhile_suffix
      (l := (l.dropWhile Char.isWhitespace).reverse) Char.isWhitespace
    simpa using h.reverse
  exact h1.isInfix.trans (List.dropWhile_suffix Char.isWhitespace).isInfix

/-- Helper: a Python slice is a contiguous substring. -/
theorem pySlice_isInfix (l : List Char) (a b : Int) : pySlice l a b <:+: l := by
  rw [pySlice]
  exact ((l.take (pySliceClamp l.length b)).drop_suffix
    (pySliceClamp l.length a)).isInfix.trans
    (l.take_prefix (pySliceClamp l.length b)).isInfix

/-- Helper: every chunk the fixed-size window loop accumulates has text
that is a contiguous substring of the input. -/
theorem fixedLoop_isInfix (cfg : ChunkerConfig) (text : List Char) :
    ∀ (fuel : Nat) (start : Int) (acc cs : List Chunk),
      fixedLoop cfg text fuel start acc = some cs →
      (∀ c ∈ acc, c.text <:+: text) →
      ∀ c ∈ cs, c.text <:+: text := by
  intro fuel
  induction fuel with
  | zero => intro start acc cs h; exact absurd h (by simp [fixedLoop])
  | succ n ih =>
    intro start acc cs h hacc
    rw [fixedLoop] at h
    by_cases hlt : start < (text.length : Int)
    · simp only [hlt, if_true] at h
      split at h
      · refine ih _ _ _ h ?_
        intro c hc
        rcases List.mem_append.mp hc with hc1 | hc2
        · exact hacc c hc1
        · have hceq : c = ⟨pyStrip (pySlice text start
              (start + (cfg.chunk_size : Int))), acc.length,
              chunkMeta (pySlice text start
                (start + (cfg.chunk_size : Int))).length "fixed_size"⟩ := by
            simpa using hc2
          rw [hceq]
          exact (pyStrip_isInfix _).trans (pySlice_isInfix text _ _)
      · exact ih _ _ _ h hacc
    · simp only [hlt, if_false] at h
      cases h
      exact hacc

/-- C4 counterexample: the sentence strategy on `"a.\nb."` emits the
single chunk `"a. b."`, which contains a space character although the
input contains none — the chunker joins sentences with an invented
`" "`, so chunk texts are not made only of substrings of the input. -/
theorem c4_counterexample :
    (SentenceChunker.chunk {} ("a.\nb.".toList)).map (fun c => c.text) =
      ["a. b.".toList] ∧
    ' ' ∈ "a. b.".toList ∧ ' ' ∉ "a.\nb.".toList := by
  exact ⟨by decide, by decide, by decide⟩

/-- C4 (amended): for the fixed-size strategy every emitted chunk's text
is a contiguous substring of the input, so that strategy invents no
characters; the recursive strategy (which re-appends its current
separator to every piece, including the last) and the sentence strategy
(which joins sentences with a single space) can emit chunks containing
separator characters that did not occur at that position in the input. -/
theorem c4_fixed_chunks_are_substrings (cfg : ChunkerConfig)
    (text : List Char) (cs : List Chunk)
    (h : FixedSizeChunker.chunk cfg text = some cs) :
    ∀ c ∈ cs, c.text <:+: text := by
  rw [FixedSizeChunker.chunk] at h
  split at h
  · cases h
    intro c hc
    exact absurd hc (List.not_mem_nil c)
  · exact fixedLoop_isInfix cfg text _ _ _ _ h (by intro c hc; exact absurd hc (List.not_mem_nil c))

/-- C4 witness. -/
theorem c4_fixed_chunks_are_substrings_witness :
    (⟨"bcd".toList, 1, chunkMeta 3 "fixed_size"⟩ : Chunk).text <:+:
      " abcd".toList :=
  c4_fixed_chunks_are_substrings ⟨3, 1, 2, defaultSeparators⟩ (" abcd".toList)
    [⟨"ab".toList, 0, chunkMeta 3 "fixed_size"⟩,
     ⟨"bcd".toList, 1, chunkMeta 3 "fixed_size"⟩,
     ⟨"d".toList, 2, chunkMeta 1 "fixed_size"⟩]
    (by decide) ⟨"bcd".toList, 1, chunkMeta 3 "fixed_size"⟩ (by decide)

/-- Helper: inserting into the stable descending sort is a permutation. -/
theorem insertDesc_perm (x : SearchResult) (l : List SearchResult) :
    (insertDesc x l).Perm (x :: l) := by
  induction l with
  | nil => rfl
  | cons y ys ih =>
    rw [insertDesc]
    by_cases h : x.score < y.score
    · simp only [h, if_true]
      exact (List.Perm.cons y ih).trans (List.Perm.swap x y ys)
    · simp [h]

/-- Helper: the stable descending sort is a permutation. -/
theorem sortDescByScore_perm (l : List SearchResult) :
    (sortDescByScore l).Perm l := by
  induction l with
  | nil => rfl
  | cons x xs ih =>
    rw [sortDescByScore]
    exact (insertDesc_perm x (sortDescByScore xs)).trans (List.Perm.cons x ih)

/-- Helper: membership in the decorated insertion. -/
theorem mem_insertDescP (z x : Nat × SearchResult)
    (l : List (Nat × SearchResult)) :
    z ∈ insertDescP x l ↔ z = x ∨ z ∈ l := by
  induction l with
  | nil => simp [insertDescP]
  | cons y ys ih =>
    rw [insertDescP]
    by_cases h : x.2.score < y.2.score
    · simp only [h, if_true, List.mem_cons, ih]
      tauto
    · simp only [h, if_false, List.mem_cons]

/-- Helper: the undecorated sort agrees with the decorated one. -/
theorem insertDesc_eq_insertDescP (x : Nat × SearchResult)
    (l : List (Nat × SearchResult)) :
    insertDesc x.2 (l.map Prod.snd) = (insertDescP x l).map Prod.snd := by
  induction l with
  | nil => rfl
  | cons y ys ih =>
    rw [List.map_cons, insertDesc, insertDescP]
    by_cases h : x.2.score < y.2.score
    · simp only [h, if_true, List.map_cons, ih]
    · simp [h]

/-- Helper: the re-ranking sort is the index-forgetting image of the
decorated stable sort. -/
theorem sortDescByScore_eq_pairSortDesc (l : List (Nat × SearchResult)) :
    sortDescByScore (l.map Prod.snd) = (pairSortDesc l).map Prod.snd := by
  induction l with
  | nil => rfl
  | cons x xs ih =>
    rw [List.map_cons, sortDescByScore, pairSortDesc, ih]
    exact insertDesc_eq_insertDescP x (pairSortDesc xs)

/-- Helper: inserting an element whose original position precedes every
position in the list preserves the stable-descending ordering. -/
theorem insertDescP_pairwise (x : Nat × SearchResult)
    (l : List (Nat × SearchResult)) (hl : l.Pairwise rankedBefore)
    (hidx : ∀ y ∈ l, x.1 < y.1) :
    (insertDescP x l).Pairwise rankedBefore := by
  induction l with
  | nil => simp [insertDescP, List.pairwise_singleton]
  | cons y ys ih =>
    rw [List.pairwise_cons] at hl
    obtain ⟨hy, hys⟩ := hl
    rw [insertDescP]
    by_cases h : x.2.score < y.2.score
    · simp only [h, if_true]
      rw [List.pairwise_cons]
      constructor
      · intro z hz
        rcases (mem_insertDescP z x ys).mp hz with hzx | hzys
        · rw [hzx]
          exact Or.inl h
        · exact hy z hzys
      · exact ih hys (fun z hz => hidx z (List.mem_cons_of_mem y hz))
    · simp only [h, if_false]
      rw [List.pairwise_cons]
      constructor
      · intro z hz
        rcases List.mem_cons.mp hz with hzy | hzys
        · rw [hzy]
          rcases lt_or_eq_of_le (not_lt.mp h) with hlt | heq
          · exact Or.inl hlt
          · exact Or.inr ⟨heq.symm, hidx y (List.mem_cons_self y ys)⟩
        · have hyz := hy z hzys
          rcases hyz with hs | ⟨hseq, _⟩
          · rcases lt_or_eq_of_le (not_lt.mp h) with hlt | heq
            · exact Or.inl (hs.trans hlt)
            · exact Or.inl (heq ▸ hs)
          · rcases lt_or_eq_of_le (not_lt.mp h) with hlt | heq
            · exact Or.inl (hseq ▸ hlt)
            · exact Or.inr ⟨by rw [← heq, hseq],
                hidx z (List.mem_cons_of_mem y hzys)⟩
      · exact List.pairwise_cons.mpr ⟨hy, hys⟩

/-- Helper: the decorated sort preserves membership. -/
theorem pairSortDesc_mem (z : Nat × SearchResult)
    (l : List (Nat × SearchResult)) : z ∈ pairSortDesc l ↔ z ∈ l := by
  induction l with
  | nil => rfl
  | cons x xs ih =>
    rw [pairSortDesc, mem_insertDescP, ih, List.mem_cons]

/-- Helper: on a list with strictly increasing original positions the
decorated sort is stably descending: strictly larger scores first, equal
scores in original order. -/
theorem pairSortDesc_pairwise (l : List (Nat × SearchResult))
    (hl : l.Pairwise (fun a b => a.1 < b.1)) :
    (pairSortDesc l).Pairwise rankedBefore := by
  induction l with
  | nil => exact List.Pairwise.nil
  | cons x xs ih =>
    rw [List.pairwise_cons] at hl
    obtain ⟨hx, hxs⟩ := hl
    rw [pairSortDesc]
    refine insertDescP_pairwise x (pairSortDesc xs) (ih hxs) ?_
    intro y hy
    have hmem : y ∈ xs := (pairSortDesc_mem y xs).mp hy
    exact hx y hmem


/-- Helper: `enum` decorates with strictly increasing positions. -/
theorem enum_pairwise_fst_lt (l : List SearchResult) :
    l.enum.Pairwise (fun a b => a.1 < b.1) := by
  rw [List.pairwise_iff_getElem]
  intro i j hi hj hij
  simp only [List.getElem_enum]
  simpa using hij

/-- C6: re-ranking (a) returns a permutation of the boosted hits — no
hit is removed or added; (b) sorts them descending by adjusted score;
(c) equals the index-forgetting image of the decorated stable sort,
which (d) orders strictly larger adjusted scores first and keeps equal
adjusted scores in their prior relative order; and (e) the boost
multiplies each hit's score by `1 + matchCount * 0.1` (the count of
whitespace-delimited lower-cased query words occurring as substrings of
the hit's lower-cased text), changing nothing else about the hit. -/
theorem c6_rerank_stable_boost (query : List Char)
    (results : List SearchResult) :
    (rerank query results).Perm
      (results.map (rerankBoost (pySplitWs (pyLower query)))) ∧
    (rerank query results).Pairwise (fun a b => b.score ≤ a.score) ∧
    rerank query results =
      (pairSortDesc
        (results.map (rerankBoost (pySplitWs (pyLower query)))).enum).map
        Prod.snd ∧
    (pairSortDesc
      (results.map (rerankBoost (pySplitWs (pyLower query)))).enum).Pairwise
      rankedBefore ∧
    ∀ r ∈ results, rerankBoost (pySplitWs (pyLower query)) r =
      { r with score := r.score * (1 + ((pySplitWs (pyLower query)).countP
          (fun word => pyContains (pyLower r.text) word) : ℚ) * (1 / 10)) } := by
  have hdef : rerank query results =
      sortDescByScore (results.map (rerankBoost (pySplitWs (pyLower query)))) :=
    rfl
  have heq : rerank query results =
      (pairSortDesc
        (results.map (rerankBoost (pySplitWs (pyLower query)))).enum).map
        Prod.snd := by
    rw [hdef, ← sortDescByScore_eq_pairSortDesc, List.enum_map_snd]
  have hpair : (pairSortDesc
      (results.map (rerankBoost (pySplitWs (pyLower query)))).enum).Pairwise
      rankedBefore :=
    pairSortDesc_pairwise _ (enum_pairwise_fst_lt _)
  refine ⟨?_, ?_, heq, hpair, ?_⟩
  · rw [hdef]
    exact sortDescByScore_perm _
  · rw [heq]
    rw [List.pairwise_map]
    refine hpair.imp ?_
    intro a b hab
    rcases hab with hlt | ⟨heq2, _⟩
    · exact le_of_lt hlt
    · exact le_of_eq heq2.symm
  · intro r _
    rfl

/-- C6 witness. -/
theorem c6_rerank_stable_boost_witness :
    rerankBoost (pySplitWs (pyLower "hi".toList))
      ⟨"1", "hi there".toList, 1 / 2, []⟩ =
    { id := "1", text := "hi there".toList,
      score := (1 / 2 : ℚ) * (1 + (((pySplitWs (pyLower "hi".toList)).countP
        (fun word => pyContains (pyLower ("hi there".toList)) word)) : ℚ) *
          (1 / 10)),
      metadata := [] } :=
  (c6_rerank_stable_boost ("hi".toList)
    [⟨"1", "hi there".toList, 1 / 2, []⟩]).2.2.2.2
    ⟨"1", "hi there".toList, 1 / 2, []⟩ (by simp)

/-- C2 (failing-input evaluation): on the chunk list with texts
`["a", " ", "b"]` — the middle one whitespace-only — `index_chunks` with
the mock embedder upserts only two passages: `("a", embed "a")` and,
misaligned, `(" ", embed "b")`; the chunk `"b"` gets no passage at all.
The batch embedding drops the whitespace-only text, and the `zip` in
`index_chunks` then pairs chunks with the embeddings of later chunks,
contradicting the claim that each stored passage's vector is the
embedding of that same passage's text.  (`gen` stands for the mock
embedder's deterministic vector generator; the result holds for every
generator, dimension count and id supply.) -/
theorem c2_index_chunks_misaligned (gen : List Char → List ℚ) (dims : Nat)
    (freshId : Nat → String) :
    (index_chunks (mockEmbedBatch gen dims) freshId
      [⟨"a".toList, 0, []⟩, ⟨" ".toList, 1, []⟩, ⟨"b".toList, 2, []⟩]
      none).2 = 2 ∧
    ((index_chunks (mockEmbedBatch gen dims) freshId
      [⟨"a".toList, 0, []⟩, ⟨" ".toList, 1, []⟩, ⟨"b".toList, 2, []⟩]
      none).1.map (fun d => (d.text, d.vector))) =
      [("a".toList, gen ("a".toList)), (" ".toList, gen ("b".toList))] := by
  exact ⟨rfl, rfl⟩

/-- Helper: if the continuation fails on every suffix, the greedy
repetition attempts all fail. -/
theorem repTryDown_none {α : Type} (prev : Option Char) (s : List Char)
    (k : Option Char → List Char → Option α) (lo : Nat)
    (hk : ∀ p' s', s' <:+ s → k p' s' = none) :
    ∀ n, repTryDown prev s k lo n = none := by
  intro n
  induction n with
  | zero =>
    rw [repTryDown]
    split
    · exact hk prev s (List.suffix_refl s)
    · rfl
  | succ m ih =>
    rw [repTryDown]
    by_cases h : m + 1 < lo
    · simp [h]
    · simp only [h, if_false]
      rw [hk (s.get? m) (s.drop (m + 1)) (List.drop_suffix (m + 1) s)]
      exact ih

/-- Helper: if the continuation fails on every suffix of the input, the
whole match fails (the matcher only ever hands suffixes on). -/
theorem reMatch_none_of_k_none {α : Type} (re : RE) :
    ∀ (prev : Option Char) (s : List Char)
      (k : Option Char → List Char → Option α),
      (∀ p' s', s' <:+ s → k p' s' = none) → reMatch re prev s k = none := by
  induction re with
  | cls p =>
    intro prev s k hk
    cases s with
    | nil => rfl
    | cons c rest =>
      rw [reMatch]
      split
      · exact hk (some c) rest (List.suffix_cons c rest)
      · rfl
  | seq a b iha ihb =>
    intro prev s k hk
    rw [reMatch]
    apply iha
    intro p' s' hs'
    apply ihb
    intro p'' s'' hs''
    exact hk p'' s'' (hs''.trans hs')
  | alt a b iha ihb =>
    intro prev s k hk
    rw [reMatch, iha prev s k hk, ihb prev s k hk]
    rfl
  | eps =>
    intro prev s k hk
    exact hk prev s (List.suffix_refl s)
  | rep p lo hi =>
    intro prev s k hk
    rw [reMatch]
    exact repTryDown_none prev s k lo hk _
  | bound =>
    intro prev s k hk
    rw [reMatch]
    split
    · exact hk prev s (List.suffix_refl s)
    · rfl

/-- Helper: a pattern that requires a `pred` character cannot match
inside a string with no `pred` character, whatever the continuation. -/
theorem reMatch_none_of_requires {α : Type} (pred : Char → Bool) (re : RE) :
    reRequires pred re →
    ∀ (prev : Option Char) (s : List Char), (∀ c ∈ s, pred c = false) →
      ∀ k : Option Char → List Char → Option α, reMatch re prev s k = none := by
  induction re with
  | cls p =>
    intro hreq prev s hs k
    cases s with
    | nil => rfl
    | cons c rest =>
      rw [reMatch]
      have hpc : p c = false := by
        by_contra hpc'
        have h1 : pred c = true := hreq c (by
          revert hpc'
          cases p c <;> simp)
        rw [hs c (List.mem_cons_self c rest)] at h1
        exact Bool.false_ne_true h1
      simp [hpc]
  | seq a b iha ihb =>
    intro hreq prev s hs k
    rw [reMatch]
    rcases hreq with hra | hrb
    · exact iha hra prev s hs _
    · apply reMatch_none_of_k_none
      intro p' s' hs'
      exact ihb hrb p' s' (fun c hc => hs c (hs'.subset hc)) k
  | alt a b iha ihb =>
    intro hreq prev s hs k
    obtain ⟨hra, hrb⟩ := hreq
    rw [reMatch, iha hra prev s hs k, ihb hrb prev s hs k]
    rfl
  | eps => intro hreq; exact absurd hreq id
  | rep p lo hi =>
    intro hreq prev s hs k
    obtain ⟨hlo, hcls⟩ := hreq
    rw [reMatch]
    have htw : s.takeWhile p = [] := by
      cases s with
      | nil => rfl
      | cons c rest =>
        have hpc : p c = false := by
          by_contra hpc'
          have h1 : pred c = true := hcls c (by
            revert hpc'
            cases p c <;> simp)
          rw [hs c (List.mem_cons_self c rest)] at h1
          exact Bool.false_ne_true h1
        simp [List.takeWhile_cons, hpc]
    have hmax : repMaxTake p hi s = 0 := by
      cases hi <;> simp [repMaxTake, htw]
    rw [hmax, repTryDown]
    have hlo0 : ¬ lo = 0 := by omega
    simp [hlo0]
  | bound => intro hreq; exact absurd hreq id

/-- Helper: substitution leaves a string with no `pred` character
unchanged when the pattern requires one. -/
theorem pySubGo_id (re : RE) (repl : List Char) (pred : Char → Bool)
    (hreq : reRequires pred re) :
    ∀ (fuel : Nat) (prev : Option Char) (s : List Char),
      (∀ c ∈ s, pred c = false) → pySubGo re repl fuel prev s = s := by
  intro fuel
  induction fuel with
  | zero => intro prev s _; rfl
  | succ n ih =>
    intro prev s hs
    have hm : reMatchAt re prev s = none := by
      rw [reMatchAt]
      exact reMatch_none_of_requires pred re hreq prev s hs _
    simp only [pySubGo, hm]
    cases s with
    | nil => rfl
    | cons c rest =>
      show c :: pySubGo re repl n (some c) rest = c :: rest
      rw [ih (some c) rest (fun x hx => hs x (List.mem_cons_of_mem c hx))]

/-- Helper: the whole pattern pipeline leaves such a string unchanged. -/
theorem foldl_sub_id (pred : Char → Bool) (s : List Char)
    (hs : ∀ c ∈ s, pred c = false) :
    ∀ ps : List PIIPattern, (∀ p ∈ ps, reRequires pred p.pattern) →
      ps.foldl (fun masked p => pySubRe p.pattern p.replacement masked) s
        = s := by
  intro ps
  induction ps with
  | nil => intro _; rfl
  | cons p rest ih =>
    intro hps
    rw [List.foldl_cons]
    rw [show pySubRe p.pattern p.replacement s = s from
      pySubGo_id p.pattern p.replacement pred
        (hps p (List.mem_cons_self p rest)) _ none s hs]
    exact ih (fun q hq => hps q (List.mem_cons_of_mem p hq))

/-- Helper: digits satisfy the digit-or-at predicate. -/
theorem digit_imp_predDA : ∀ c : Char, Char.isDigit c = true → predDA c = true := by
  intro c h
  simp [predDA, h]

/-- Helper: every match of the NI pattern contains a digit. -/
theorem reqNI : reRequires predDA reNI := by
  simp only [reNI, reSeqs, List.foldr, reRequires]
  exact Or.inr (Or.inr (Or.inr (Or.inl ⟨by omega, digit_imp_predDA⟩)))

/-- Helper: every match of the DOB pattern contains a digit. -/
theorem reqDOB : reRequires predDA reDOB := by
  simp only [reDOB, reSeqs, List.foldr, reRequires]
  exact Or.inr (Or.inr (Or.inr (Or.inr (Or.inr (Or.inr
    (Or.inl ⟨by omega, digit_imp_predDA⟩))))))

/-- Helper: every match of the phone pattern contains a digit
(both the mobile and the landline alternative). -/
theorem reqPhone : reRequires predDA rePhone := by
  simp only [rePhone, reSeqs, List.foldr, reRequires]
  constructor
  · exact Or.inr (Or.inr (Or.inr (Or.inr
      (Or.inl ⟨by omega, digit_imp_predDA⟩))))
  · exact Or.inr (Or.inr (Or.inr (Or.inr
      (Or.inl ⟨by omega, digit_imp_predDA⟩))))

/-- Helper: every match of the email pattern contains the `@`. -/
theorem reqEmail : reRequires predDA reEmail := by
  simp only [reEmail, reSeqs, List.foldr, reRequires, reChar]
  refine Or.inr (Or.inr (Or.inl ?_))
  intro c h
  have hc : c = '@' := by simpa using h
  rw [hc]
  rfl

/-- Helper: every match of the postcode pattern contains a digit. -/
theorem reqPostcode : reRequires predDA rePostcode := by
  simp only [rePostcode, reSeqs, List.foldr, reRequires]
  exact Or.inr (Or.inr (Or.inl digit_imp_predDA))

/-- Helper: every match of the sort-code pattern contains a digit. -/
theorem reqSortCode : reRequires predDA reSortCode := by
  simp only [reSortCode, reSeqs, List.foldr, reRequires]
  exact Or.inr (Or.inl ⟨by omega, digit_imp_predDA⟩)

/-- Helper: every match of the bank-account pattern contains a digit. -/
theorem reqBankAccount : reRequires predDA reBankAccount := by
  simp only [reBankAccount, reSeqs, List.foldr, reRequires]
  exact Or.inr (Or.inl ⟨by omega, digit_imp_predDA⟩)

/-- Helper: every match of the passport pattern contains a digit. -/
theorem reqPassport : reRequires predDA rePassport := by
  simp only [rePassport, reSeqs, List.foldr, reRequires]
  exact Or.inr (Or.inl ⟨by omega, digit_imp_predDA⟩)

/-- Helper: all eight patterns require a digit-or-at character. -/
theorem reqAll : ∀ p ∈ piiPatterns, reRequires predDA p.pattern := by
  intro p hp
  simp only [piiPatterns, List.mem_cons, List.not_mem_nil, or_false] at hp
  rcases hp with h | h | h | h | h | h | h | h <;> subst h
  · exact reqNI
  · exact reqDOB
  · exact reqPhone
  · exact reqEmail
  · exact reqPostcode
  · exact reqSortCode
  · exact reqBankAccount
  · exact reqPassport

/-- Helper: no placeholder token contains a digit or `@`. -/
theorem placeholder_chars_ok :
    ∀ t ∈ piiPlaceholders, ∀ c ∈ t, predDA c = false := by
  decide

/-- Helper: whitespace is neither a digit nor `@`. -/
theorem ws_predDA_false : ∀ c : Char, c.isWhitespace = true → predDA c = false := by
  intro c h
  simp only [Char.isWhitespace, Bool.or_eq_true, decide_eq_true_eq] at h
  rcases h with ((h | h) | h) | h <;> (subst h; rfl)

/-- Helper: placeholder-and-whitespace texts contain no digit and no
`@`. -/
theorem placeholderOnly_pred_free (s : List Char) (hs : PlaceholderOnly s) :
    ∀ c ∈ s, predDA c = false := by
  induction hs with
  | nil => intro c hc; exact absurd hc (List.not_mem_nil c)
  | tok t rest ht _ ih =>
    intro c hc
    rcases List.mem_append.mp hc with hct | hcr
    · exact placeholder_chars_ok t ht c hct
    · exact ih c hcr
  | ws c0 rest hws _ ih =>
    intro c hc
    rcases List.mem_cons.mp hc with hcc | hcr
    · rw [hcc]; exact ws_predDA_false c0 hws
    · exact ih c hcr

/-- C9: masking is idempotent on already-masked text — on any string
composed only of the eight placeholder tokens and whitespace, `mask`
returns the string unchanged (no pattern can match, since every pattern
needs a digit or an `@` and such strings contain neither). -/
theorem c9_mask_idempotent_on_placeholders (s : List Char)
    (hs : PlaceholderOnly s) : mask s = s := by
  have hpred : ∀ c ∈ s, predDA c = false := placeholderOnly_pred_free s hs
  rw [mask]
  split
  · rfl
  · exact foldl_sub_id predDA s hpred piiPatterns reqAll

/-- C9 witness: `mask` leaves `"[NI_NUMBER] [DOB]"` unchanged. -/
theorem c9_mask_idempotent_on_placeholders_witness :
    mask ("[NI_NUMBER] [DOB]".toList) = "[NI_NUMBER] [DOB]".toList :=
  c9_mask_idempotent_on_placeholders ("[NI_NUMBER] [DOB]".toList)
    (PlaceholderOnly.tok ("[NI_NUMBER]".toList) (' ' :: "[DOB]".toList)
      (by decide)
      (PlaceholderOnly.ws ' ' ("[DOB]".toList) (by decide)
        (PlaceholderOnly.tok ("[DOB]".toList) [] (by decide)
          PlaceholderOnly.nil)))
